import Mathlib

/-!
Verification of the Upcora document-processing and scoring slice.

The definitions below are shallow embeddings of the TypeScript sources:
  * `src/server/lib/fileProcessing.ts` (text extraction, cleanup, truncation),
  * `src/server/lib/mediaService.ts` (keyword extraction),
  * `src/server/routes/games.ts` (score submission: badges and XP),
  * `src/client/components/GameView.tsx` (client-side score calculator).

Strings are modeled through their character lists; JS regular-expression
transforms are embedded as equivalent deterministic scanners (the regexes in
the source are all of the backtracking-free kind, so each has a unique match
semantics).  Buffers are modeled by their decoded UTF-8 text, and the
external parser libraries (pdf-parse, mammoth, jszip's ZIP decoding) are
inputs to the embedding, never stubbed results.
-/

namespace Upcora

/-- The JS whitespace class `\s` (ASCII part): space, tab, LF, VT, FF, CR.
Used by `replace(/\s+/g, ' ')`, `split(/\s+/)` and `trim()` in the source. -/
def isWsChar (c : Char) : Bool :=
  c = ' ' || c = '\t' || c = '\n' || c = Char.ofNat 11 || c = Char.ofNat 12 || c = '\r'

theorem length_dropWhile_le {α : Type} (p : α → Bool) :
    ∀ l : List α, (l.dropWhile p).length ≤ l.length := by
  intro l
  induction l with
  | nil => simp
  | cons c cs ih =>
    by_cases h : p c
    · simpa [List.dropWhile, h] using Nat.le_succ_of_le ih
    · simp [List.dropWhile, h]

/-- State machine for `replace(/\s+/g, ' ')`: the flag records whether the
scanner is inside a whitespace run (whose first character already emitted the
single replacement space). -/
def collapseWsGo : Bool → List Char → List Char
  | _, [] => []
  | inRun, c :: cs =>
    if isWsChar c then
      if inRun then collapseWsGo true cs else ' ' :: collapseWsGo true cs
    else c :: collapseWsGo false cs

/-- `replace(/\s+/g, ' ')`: every maximal run of whitespace becomes one space. -/
def collapseWsRuns (cs : List Char) : List Char :=
  collapseWsGo false cs

/-- `trim()`: drop leading and trailing whitespace. -/
def trimChars (cs : List Char) : List Char :=
  ((cs.dropWhile isWsChar).reverse.dropWhile isWsChar).reverse

/-- `String.prototype.lastIndexOf` for a single character, as an `Option`
(`none` plays the role of JS's `-1`). -/
def lastIdxOf (a : Char) : List Char → Option Nat
  | [] => none
  | c :: cs =>
    match lastIdxOf a cs with
    | some i => some (i + 1)
    | none => if c = a then some 0 else none

/-- State machine for `replace(/\n\s*\n/g, '\n\n')`.  `none` is the plain
scanning state; `some (pending, found)` means a `'\n'` was read, `pending`
holds the non-newline whitespace read since the most recent newline (in
reverse), and `found` records whether a second newline was seen (the greedy
`\s*` followed by the final `\n` extends each match to the last newline of
the whitespace run). -/
def cblGo : Option (List Char × Bool) → List Char → List Char
  | none, [] => []
  | some (pending, found), [] =>
    (if found then ['\n', '\n'] else ['\n']) ++ pending.reverse
  | none, c :: cs => if c = '\n' then cblGo (some ([], false)) cs else c :: cblGo none cs
  | some (pending, found), c :: cs =>
    if c = '\n' then cblGo (some ([], true)) cs
    else if isWsChar c then cblGo (some (c :: pending, found)) cs
    else ((if found then ['\n', '\n'] else ['\n']) ++ pending.reverse) ++ c :: cblGo none cs

/-- `replace(/\n\s*\n/g, '\n\n')`: a newline followed by whitespace containing
a further newline collapses to exactly two newlines. -/
def cleanBlankLines (cs : List Char) : List Char :=
  cblGo none cs

/-- The common post-extraction cleanup of `extractTextFromFile`
(`fileProcessing.ts` lines 253-256): collapse whitespace runs, collapse blank
lines, trim. -/
def cleanupChars (cs : List Char) : List Char :=
  trimChars (cleanBlankLines (collapseWsRuns cs))

/-- String-level wrapper of `cleanupChars`. -/
def cleanupText (s : String) : String :=
  ⟨cleanupChars s.data⟩

/-- State machine for `split(/\s+/)`: the flag records whether the scanner is
inside a separator (whitespace) run, `cur` the current token in reverse. -/
def jsSplitWsGo : Bool → List Char → List Char → List (List Char)
  | _, [], cur => [cur.reverse]
  | inRun, c :: cs, cur =>
    if isWsChar c then
      if inRun then jsSplitWsGo true cs cur
      else cur.reverse :: jsSplitWsGo true cs []
    else jsSplitWsGo false cs (c :: cur)

/-- `split(/\s+/)` exactly as in JS: separators are maximal whitespace runs;
a leading run contributes a leading empty string, a trailing run a trailing
empty string, and the split of `""` is `[""]`. -/
def jsSplitWsList (cs : List Char) : List (List Char) :=
  jsSplitWsGo false cs []

/-- String-level `split(/\s+/)`. -/
def jsSplitWs (s : String) : List String :=
  (jsSplitWsList s.data).map fun cs => ⟨cs⟩

/-- `truncateTextForAI` (`fileProcessing.ts` lines 293-311).  The character
budget is `maxTokens * 4`; a fitting text is returned unchanged; otherwise
the text is cut at `lastIndexOf('.')` of the truncated prefix when that index
exceeds 80% of the budget (`i > 0.8 * maxChars`, which for natural `i` and
`maxChars` is exactly `5 * i > 4 * maxChars`; no double-rounding of
`maxChars * 0.8` can move the comparison across an integer), else the prefix
plus `"..."` is returned. -/
def truncateTextForAI (text : String) (maxTokens : Nat) : String :=
  let maxChars := maxTokens * 4
  if text.length ≤ maxChars then text
  else
    let truncated := text.data.take maxChars
    match lastIdxOf '.' truncated with
    | some i =>
      if 4 * maxChars < 5 * i then ⟨truncated.take (i + 1)⟩
      else ⟨truncated ++ "...".data⟩
    | none => ⟨truncated ++ "...".data⟩

theorem lastIdxOf_eq_none {a : Char} :
    ∀ {cs : List Char}, lastIdxOf a cs = none → ∀ j, cs.get? j ≠ some a := by
  intro cs
  induction cs with
  | nil => intro _ j; simp
  | cons c cs ih =>
    intro h j
    simp only [lastIdxOf] at h
    cases hrec : lastIdxOf a cs with
    | some i' => rw [hrec] at h; cases h
    | none =>
      rw [hrec] at h
      by_cases hc : c = a
      · simp [hc] at h
      · cases j with
        | zero => simpa using hc
        | succ j' => simpa using ih hrec j'

theorem lastIdxOf_eq_some {a : Char} :
    ∀ {cs : List Char} {i : Nat}, lastIdxOf a cs = some i →
      i < cs.length ∧ cs.get? i = some a ∧ ∀ j, i < j → cs.get? j ≠ some a := by
  intro cs
  induction cs with
  | nil => intro i h; simp [lastIdxOf] at h
  | cons c cs ih =>
    intro i h
    simp only [lastIdxOf] at h
    cases hrec : lastIdxOf a cs with
    | some i' =>
      rw [hrec] at h
      cases h
      obtain ⟨h1, h2, h3⟩ := ih hrec
      refine ⟨by simpa using Nat.succ_lt_succ h1, by simpa using h2, ?_⟩
      intro j hj
      cases j with
      | zero => omega
      | succ j' => simpa using h3 j' (by omega)
    | none =>
      rw [hrec] at h
      by_cases hc : c = a
      · simp only [hc, if_pos rfl] at h
        cases h
        refine ⟨by simp, by simp [hc], ?_⟩
        intro j hj
        cases j with
        | zero => omega
        | succ j' =>
          simp only [List.get?_cons_succ]
          exact lastIdxOf_eq_none hrec j'
      · simp [hc] at h

theorem take_get?_eq {α : Type} :
    ∀ {l : List α} {m i : Nat}, i < m → (l.take m).get? i = l.get? i := by
  intro l
  induction l with
  | nil => intro m i _; simp
  | cons a l ih =>
    intro m i h
    cases m with
    | zero => omega
    | succ m' =>
      cases i with
      | zero => simp
      | succ i' => simpa using ih (by omega)

/-- C3: `truncateTextForAI text n` returns a string of length at most
`n*4 + 3`; it returns `text` unchanged whenever `text.length ≤ n*4`; and when
`text` is longer it cuts right after the last `'.'` of the truncated prefix
whenever that dot sits strictly after 80% of the `n*4` character budget
(`5*i > 4*(n*4)`), and otherwise hard-truncates at `n*4` characters and
appends `"..."`. -/
theorem truncateTextForAI_spec (text : String) (n : Nat) :
    (truncateTextForAI text n).length ≤ n * 4 + 3
    ∧ (text.length ≤ n * 4 → truncateTextForAI text n = text)
    ∧ (∀ i : Nat, n * 4 < text.length → i < n * 4 → text.data.get? i = some '.' →
        4 * (n * 4) < 5 * i → (∀ j, i < j → j < n * 4 → text.data.get? j ≠ some '.') →
        truncateTextForAI text n = ⟨text.data.take (i + 1)⟩)
    ∧ (n * 4 < text.length →
        (∀ i, i < n * 4 → 4 * (n * 4) < 5 * i → text.data.get? i ≠ some '.') →
        truncateTextForAI text n = ⟨text.data.take (n * 4) ++ "...".data⟩) := by
  have hlen : text.length = text.data.length := rfl
  by_cases hle : text.length ≤ n * 4
  · have hres : truncateTextForAI text n = text := by
      simp [truncateTextForAI, hle]
    refine ⟨by rw [hres]; omega, fun _ => hres, ?_, ?_⟩
    · intro i hbig _ _ _ _; omega
    · intro hbig _; omega
  · have hbig : n * 4 < text.length := by omega
    have htklen : (text.data.take (n * 4)).length = n * 4 := by
      simp [List.length_take]; omega
    cases hlast : lastIdxOf '.' (text.data.take (n * 4)) with
    | none =>
      have hres : truncateTextForAI text n = ⟨text.data.take (n * 4) ++ "...".data⟩ := by
        simp [truncateTextForAI, hle, hlast]
      have hnodot : ∀ j, (text.data.take (n * 4)).get? j ≠ some '.' :=
        lastIdxOf_eq_none hlast
      refine ⟨?_, by omega, ?_, ?_⟩
      · rw [hres]
        show (text.data.take (n * 4) ++ "...".data).length ≤ n * 4 + 3
        simp [htklen]
      · intro i _ hi hdot _ _
        exact absurd (by rw [take_get?_eq hi]; exact hdot) (hnodot i)
      · intro _ _
        rw [hres]
    | some i' =>
      obtain ⟨hi'lt, hi'dot, hi'last⟩ := lastIdxOf_eq_some hlast
      rw [htklen] at hi'lt
      have hi'dot' : text.data.get? i' = some '.' := by
        rw [take_get?_eq hi'lt] at hi'dot; exact hi'dot
      by_cases hcond : 4 * (n * 4) < 5 * i'
      · have hres : truncateTextForAI text n = ⟨(text.data.take (n * 4)).take (i' + 1)⟩ := by
          simp [truncateTextForAI, hle, hlast, hcond]
        refine ⟨?_, by omega, ?_, ?_⟩
        · rw [hres]
          show ((text.data.take (n * 4)).take (i' + 1)).length ≤ n * 4 + 3
          simp [List.length_take]
        · intro i _ hi hdot _ hlastdot
          have hii' : i = i' := by
            rcases Nat.lt_trichotomy i i' with h | h | h
            · exact absurd hi'dot' (hlastdot i' h hi'lt)
            · exact h
            · exact absurd (by rw [take_get?_eq hi]; exact hdot) (hi'last i h)
          subst hii'
          rw [hres, List.take_take]
          congr 2
          omega
        · intro _ hnone
          exact absurd hi'dot' (hnone i' hi'lt hcond)
      · have hres : truncateTextForAI text n = ⟨text.data.take (n * 4) ++ "...".data⟩ := by
          simp [truncateTextForAI, hle, hlast, hcond]
        refine ⟨?_, by omega, ?_, ?_⟩
        · rw [hres]
          show (text.data.take (n * 4) ++ "...".data).length ≤ n * 4 + 3
          simp [htklen]
        · intro i _ hi hdot hth hlastdot
          have hii' : i = i' := by
            rcases Nat.lt_trichotomy i i' with h | h | h
            · exact absurd hi'dot' (hlastdot i' h hi'lt)
            · exact h
            · exact absurd (by rw [take_get?_eq hi]; exact hdot) (hi'last i h)
          subst hii'
          omega
        · intro _ _
          rw [hres]

theorem truncateTextForAI_spec_w :
    truncateTextForAI "short text" 4 = "short text"
    ∧ (truncateTextForAI "aaaa" 0).length ≤ 0 * 4 + 3 :=
  ⟨(truncateTextForAI_spec "short text" 4).2.1 (by decide),
   (truncateTextForAI_spec "aaaa" 0).1⟩

/-- JS `\w` word characters: ASCII letters, digits, underscore. -/
def isWordChar (c : Char) : Bool :=
  c.isAlphanum || c = '_'

/-- The stop-word set of `extractKeyConceptsFromText` (`mediaService.ts`
lines 31-101), transcribed in source order (the JS `Set` ignores the
duplicated entries). -/
def stopWords : List String :=
  ["this", "that", "with", "have", "will", "from", "they", "been", "were",
   "their", "said", "each", "which", "more", "very", "what", "know", "just",
   "first", "also", "after", "back", "other", "many", "than", "then", "them",
   "these", "some", "her", "would", "make", "like", "into", "him", "has",
   "two", "more", "go", "no", "way", "could", "my", "than", "first", "water",
   "been", "call", "who", "its", "now", "find", "long", "down", "day", "did",
   "get", "come", "made", "may", "part"]

/-- The tokenizer of `extractKeyConceptsFromText`: lowercase, replace
`[^\w\s]` by a space, split on whitespace, keep tokens of length > 3. -/
def keywordTokens (text : String) : List String :=
  ((jsSplitWsList ((text.data.map Char.toLower).map
      (fun c => if isWordChar c || isWsChar c then c else ' '))).map
    (fun cs => (⟨cs⟩ : String))).filter (fun w => 3 < w.length)

/-- One step of the frequency fold `acc[word] = (acc[word] || 0) + 1` on the
insertion-ordered association list modeling the JS object. -/
def bumpFreq (acc : List (String × Nat)) (w : String) : List (String × Nat) :=
  if acc.any (fun p => p.1 == w) then
    acc.map (fun p => if p.1 == w then (p.1, p.2 + 1) else p)
  else acc ++ [(w, 1)]

/-- The stop-word-filtered frequency table built by the `reduce` in
`extractKeyConceptsFromText`. -/
def wordFreq (ws : List String) : List (String × Nat) :=
  ws.foldl (fun acc w => if stopWords.contains w then acc else bumpFreq acc w) []

/-- Numeric value of a digit string (the relevant case of JS `parseInt`). -/
def natOfDigits (cs : List Char) : Nat :=
  cs.foldl (fun a c => a * 10 + (c.toNat - 48)) 0

/-- Canonical array-index keys: ECMAScript enumerates such object keys
first, in ascending numeric order.  A key qualifies when it is a canonical
decimal numeral below `2^32 - 1` (nonempty, all digits, no leading zero
except `"0"` itself). -/
def isArrayIndexKey (s : String) : Bool :=
  !s.data.isEmpty && s.data.all (·.isDigit)
    && (s == "0" || s.data.head? != some '0') && natOfDigits s.data < 4294967295

/-- `Object.entries` enumeration order on the modeled object: array-index
keys ascending numerically, then the remaining keys in insertion order. -/
def jsEntriesOrder (l : List (String × Nat)) : List (String × Nat) :=
  List.insertionSort (fun a b => natOfDigits a.1.data ≤ natOfDigits b.1.data)
      (l.filter (fun p => isArrayIndexKey p.1))
    ++ l.filter (fun p => !isArrayIndexKey p.1)

/-- The stable descending sort `.sort(([, a], [, b]) => b - a)` over the
entries (ES2019 requires `Array.prototype.sort` to be stable; a stable sort
is uniquely determined by the comparator, so insertion sort embeds it). -/
def sortByFreqDesc (l : List (String × Nat)) : List (String × Nat) :=
  List.insertionSort (fun a b => b.2 ≤ a.2) l

/-- `extractKeyConceptsFromText` (`mediaService.ts` lines 22-113): tokenize,
drop stop words, count frequencies, sort entries descending by count, take
the top 10 words. -/
def extractKeyConceptsFromText (text : String) : List String :=
  ((sortByFreqDesc (jsEntriesOrder (wordFreq (keywordTokens text)))).take 10).map
    Prod.fst

theorem filter_orderedInsert_of_pos {α : Type} (r : α → α → Prop) [DecidableRel r]
    (p : α → Bool) (a : α) (ha : p a = true)
    (hskip : ∀ b, ¬ r a b → p b = false) :
    ∀ s : List α, (s.orderedInsert r a).filter p = a :: s.filter p := by
  intro s
  induction s with
  | nil => simp [List.orderedInsert, List.filter_cons, ha]
  | cons b s ih =>
    by_cases hr : r a b
    · simp [List.orderedInsert, hr, List.filter_cons, ha]
    · have hb : p b = false := hskip b hr
      simp [List.orderedInsert, hr, List.filter_cons, hb, ih]

theorem filter_orderedInsert_of_neg {α : Type} (r : α → α → Prop) [DecidableRel r]
    (p : α → Bool) (a : α) (ha : p a = false) :
    ∀ s : List α, (s.orderedInsert r a).filter p = s.filter p := by
  intro s
  induction s with
  | nil => simp [List.orderedInsert, List.filter_cons, ha]
  | cons b s ih =>
    by_cases hr : r a b
    · simp [List.orderedInsert, hr, List.filter_cons, ha]
    · simp only [List.orderedInsert, if_neg hr, List.filter_cons, ih]

theorem sortByFreqDesc_stable (l : List (String × Nat)) (c : Nat) :
    (sortByFreqDesc l).filter (fun p => p.2 == c)
      = l.filter (fun p => p.2 == c) := by
  induction l with
  | nil => rfl
  | cons a l ih =>
    show ((List.insertionSort _ l).orderedInsert _ a).filter _ = _
    simp only [sortByFreqDesc] at ih
    by_cases ha : a.2 = c
    · rw [filter_orderedInsert_of_pos _ _ a (by simpa using ha) ?_, ih,
        List.filter_cons, if_pos (by simpa using ha)]
      intro b hb
      simp only [beq_eq_false_iff_ne, ne_eq]
      simp only [not_le] at hb
      omega
    · rw [filter_orderedInsert_of_neg _ _ a (by simpa using ha), ih,
        List.filter_cons, if_neg (by simpa using ha)]

theorem sortByFreqDesc_sorted (l : List (String × Nat)) :
    List.Pairwise (fun a b : String × Nat => b.2 ≤ a.2) (sortByFreqDesc l) := by
  haveI : IsTotal (String × Nat) (fun a b => b.2 ≤ a.2) :=
    ⟨fun a b => Nat.le_total b.2 a.2⟩
  haveI : IsTrans (String × Nat) (fun a b => b.2 ≤ a.2) :=
    ⟨fun _ _ _ hab hbc => Nat.le_trans hbc hab⟩
  exact List.sorted_insertionSort _ l

theorem bumpFreq_keys {acc : List (String × Nat)} {w : String} {k : String} :
    k ∈ (bumpFreq acc w).map Prod.fst → k ∈ acc.map Prod.fst ∨ k = w := by
  intro hk
  by_cases h : acc.any (fun p => p.1 == w)
  · simp only [bumpFreq, if_pos h, List.map_map] at hk
    simp only [List.mem_map] at hk
    obtain ⟨q, hq, hqe⟩ := hk
    left
    by_cases hqw : q.1 == w
    · simp only [Function.comp, hqw, if_pos] at hqe
      exact hqe ▸ List.mem_map_of_mem Prod.fst hq
    · simp only [Function.comp, hqw] at hqe
      simp only [Bool.false_eq_true, if_false] at hqe
      exact hqe ▸ List.mem_map_of_mem Prod.fst hq
  · simp only [bumpFreq, if_neg h, List.map_append, List.mem_append] at hk
    rcases hk with hk | hk
    · exact Or.inl hk
    · simp at hk
      exact Or.inr hk

theorem wordFreq_foldl_keys :
    ∀ (ws : List String) (acc : List (String × Nat)) (p : String × Nat),
      p ∈ ws.foldl
        (fun acc w => if stopWords.contains w then acc else bumpFreq acc w) acc →
      p.1 ∈ acc.map Prod.fst ∨ (p.1 ∈ ws ∧ stopWords.contains p.1 = false) := by
  intro ws
  induction ws with
  | nil => intro acc p hp; exact Or.inl (List.mem_map_of_mem Prod.fst hp)
  | cons w ws ih =>
    intro acc p hp
    simp only [List.foldl_cons] at hp
    by_cases hw : stopWords.contains w
    · rw [if_pos hw] at hp
      rcases ih acc p hp with h | h
      · exact Or.inl h
      · exact Or.inr ⟨List.mem_cons_of_mem w h.1, h.2⟩
    · rw [if_neg hw] at hp
      rcases ih (bumpFreq acc w) p hp with h | h
      · rcases bumpFreq_keys h with h2 | h2
        · exact Or.inl h2
        · refine Or.inr ⟨h2 ▸ List.mem_cons_self w ws, ?_⟩
          rw [h2]
          exact Bool.eq_false_iff.2 hw
      · exact Or.inr ⟨List.mem_cons_of_mem w h.1, h.2⟩

theorem wordFreq_keys {ws : List String} {p : String × Nat} (hp : p ∈ wordFreq ws) :
    p.1 ∈ ws ∧ stopWords.contains p.1 = false := by
  rcases wordFreq_foldl_keys ws [] p hp with h | h
  · simp at h
  · exact h

theorem jsEntriesOrder_subset {l : List (String × Nat)} {p : String × Nat}
    (hp : p ∈ jsEntriesOrder l) : p ∈ l := by
  simp only [jsEntriesOrder, List.mem_append] at hp
  rcases hp with hp | hp
  · rw [List.mem_insertionSort] at hp
    exact List.mem_of_mem_filter hp
  · exact List.mem_of_mem_filter hp

/-- C4 counterexample: in `"year year 2024 2024"` the token `"year"` is
encountered first and ties `"2024"` at frequency 2, yet the extractor lists
`"2024"` first.  `Object.entries` enumerates the array-index-like key
`"2024"` before the insertion-ordered string keys, so ties are not broken
purely by first-encounter order, contradicting the claim (which predicts
`["year", "2024"]` here). -/
theorem extractKeyConcepts_tie_counterexample :
    wordFreq (keywordTokens "year year 2024 2024") = [("year", 2), ("2024", 2)]
    ∧ extractKeyConceptsFromText "year year 2024 2024" = ["2024", "year"] :=
  ⟨rfl, rfl⟩

/-- C4 (amended): `extractKeyConceptsFromText` lowercases, strips
punctuation, splits on whitespace, discards tokens of length ≤ 3 and stop
words, and returns at most 10 tokens ordered by descending frequency; ties
are broken by the `Object.entries` enumeration order of the frequency table
(integer-like keys ascending numerically first, then the remaining keys in
first-encounter order), not purely by first-encounter order.  The result
never contains a stop word, and the function is deterministic (it is a pure
function of its input). -/
theorem extractKeyConcepts_spec (text : String) :
    (extractKeyConceptsFromText text).length ≤ 10
    ∧ (∀ w ∈ extractKeyConceptsFromText text,
        stopWords.contains w = false ∧ 3 < w.length)
    ∧ List.Pairwise (fun a b => b.2 ≤ a.2)
        (sortByFreqDesc (jsEntriesOrder (wordFreq (keywordTokens text))))
    ∧ (∀ c : Nat,
        (sortByFreqDesc (jsEntriesOrder (wordFreq (keywordTokens text)))).filter
            (fun p => p.2 == c)
          = (jsEntriesOrder (wordFreq (keywordTokens text))).filter
              (fun p => p.2 == c))
    ∧ extractKeyConceptsFromText text = extractKeyConceptsFromText text := by
  refine ⟨?_, ?_, sortByFreqDesc_sorted _, fun c => sortByFreqDesc_stable _ c, rfl⟩
  · calc (extractKeyConceptsFromText text).length
        = ((sortByFreqDesc (jsEntriesOrder (wordFreq (keywordTokens text)))).take
            10).length := List.length_map ..
      _ ≤ 10 := by rw [List.length_take]; omega
  · intro w hw
    simp only [extractKeyConceptsFromText, List.mem_map] at hw
    obtain ⟨p, hp, hpe⟩ := hw
    have hp2 : p ∈ sortByFreqDesc (jsEntriesOrder (wordFreq (keywordTokens text))) :=
      List.take_subset 10 _ hp
    rw [sortByFreqDesc, List.mem_insertionSort] at hp2
    have hp3 := jsEntriesOrder_subset hp2
    have hp4 := wordFreq_keys hp3
    have hlen : 3 < p.1.length := by
      have := List.mem_filter.1 hp4.1
      simpa using this.2
    exact hpe ▸ ⟨hp4.2, hlen⟩

theorem extractKeyConcepts_spec_w :
    stopWords.contains "alpha" = false ∧ 3 < ("alpha" : String).length :=
  (extractKeyConcepts_spec "alpha beta alpha").2.1 "alpha" (by decide)

/-- Drops an expected literal prefix from the input, `none` if absent. -/
def dropLit : List Char → List Char → Option (List Char)
  | [], rest => some rest
  | _ :: _, [] => none
  | l :: ls, c :: cs => if c = l then dropLit ls cs else none

/-- `relativePath.match(/ppt\/slides\/slide\d+\.xml$/)`: the path ends in
`ppt/slides/slide`, one or more digits, `.xml` (checked on the reversed
character list; `"edils/sedils/tpp"` is `"ppt/slides/slide"` reversed). -/
def isSlidePath (p : String) : Bool :=
  match dropLit "lmx.".data p.data.reverse with
  | none => false
  | some r1 =>
    !(r1.takeWhile Char.isDigit).isEmpty
      && (dropLit "edils/sedils/tpp".data (r1.dropWhile Char.isDigit)).isSome

/-- `parseInt` of the capture of `/slide(\d+)\.xml$/`, `0` when the pattern
is absent (the `|| '0'` fallback in the source). -/
def slideNum (p : String) : Nat :=
  match dropLit "lmx.".data p.data.reverse with
  | none => 0
  | some r1 =>
    let ds := r1.takeWhile Char.isDigit
    if ds.isEmpty then 0
    else if (dropLit "edils".data (r1.dropWhile Char.isDigit)).isSome then
      natOfDigits ds.reverse
    else 0

/-- Attempts the regex `<a:t[^>]*>([^<]+)<\/a:t>` at the head of the input;
on success returns the capture (the visible run text) and the input after
the match.  The pattern is deterministic: `[^>]*` necessarily stops at the
first `'>'` and `[^<]+` at the first `'<'`. -/
def tryTextRun (cs : List Char) : Option (List Char × List Char) :=
  match dropLit "<a:t".data cs with
  | none => none
  | some r1 =>
    match r1.dropWhile (· ≠ '>') with
    | '>' :: r3 =>
      let content := r3.takeWhile (· ≠ '<')
      if content.isEmpty then none
      else
        match dropLit "</a:t>".data (r3.dropWhile (· ≠ '<')) with
        | some rest => some (content, rest)
        | none => none
    | _ => none

/-- All matches of `/<a:t[^>]*>([^<]+)<\/a:t>/g` in scan order.  The fuel
starts at the input length; every step consumes at least one character, so
it never runs out before the input does. -/
def scanTextRunsGo (fuel : Nat) : List Char → List (List Char) :=
  match fuel with
  | 0 => fun _ => []
  | fuel + 1 => fun cs =>
    match cs with
    | [] => []
    | c :: cs' =>
      match tryTextRun (c :: cs') with
      | some (content, rest) => content :: scanTextRunsGo fuel rest
      | none => scanTextRunsGo fuel cs'

/-- All `<a:t>` run captures of a slide XML. -/
def scanTextRuns (cs : List Char) : List (List Char) :=
  scanTextRunsGo cs.length cs

/-- Splits the input at the first occurrence of the literal `lit`,
returning the part before it and the part after it. -/
def splitAtLit (lit : List Char) : List Char → Option (List Char × List Char)
  | [] => none
  | c :: cs =>
    match dropLit lit (c :: cs) with
    | some rest => some ([], rest)
    | none =>
      match splitAtLit lit cs with
      | some (pre, rest) => some (c :: pre, rest)
      | none => none

/-- Attempts the regex `/<a:p[^>]*>.*?<\/a:p>/s` at the head of the input;
on success returns the whole match and the rest (the lazy `.*?` stops at the
first `</a:p>`). -/
def tryParagraph (cs : List Char) : Option (List Char × List Char) :=
  match dropLit "<a:p".data cs with
  | none => none
  | some r1 =>
    let attrs := r1.takeWhile (· ≠ '>')
    match r1.dropWhile (· ≠ '>') with
    | '>' :: r3 =>
      match splitAtLit "</a:p>".data r3 with
      | some (inner, rest) =>
        some ("<a:p".data ++ attrs ++ '>' :: (inner ++ "</a:p>".data), rest)
      | none => none
    | _ => none

/-- All matches of `/<a:p[^>]*>.*?<\/a:p>/gs` in scan order (fueled like
`scanTextRunsGo`). -/
def scanParagraphsGo (fuel : Nat) : List Char → List (List Char) :=
  match fuel with
  | 0 => fun _ => []
  | fuel + 1 => fun cs =>
    match cs with
    | [] => []
    | c :: cs' =>
      match tryParagraph (c :: cs') with
      | some (m, rest) => m :: scanParagraphsGo fuel rest
      | none => scanParagraphsGo fuel cs'

/-- All paragraph matches of a slide XML. -/
def scanParagraphs (cs : List Char) : List (List Char) :=
  scanParagraphsGo cs.length cs

/-- `replace(/<[^>]+>/g, repl)`: each `'<'`, at least one non-`'>'`
character, and a `'>'` is replaced by `repl` (fueled scanner; every step
consumes at least one character). -/
def stripTagsGo (repl : List Char) (fuel : Nat) : List Char → List Char :=
  match fuel with
  | 0 => fun _ => []
  | fuel + 1 => fun cs =>
    match cs with
    | [] => []
    | c :: cs' =>
      if c = '<' then
        match cs'.dropWhile (· ≠ '>') with
        | '>' :: rest =>
          if (cs'.takeWhile (· ≠ '>')).isEmpty then c :: stripTagsGo repl fuel cs'
          else repl ++ stripTagsGo repl fuel rest
        | _ => c :: stripTagsGo repl fuel cs'
      else c :: stripTagsGo repl fuel cs'

/-- `replace(/<[^>]+>/g, repl)` over a whole input. -/
def stripTagsWith (repl : List Char) (cs : List Char) : List Char :=
  stripTagsGo repl cs.length cs

/-- The `filter((text, index, array) => array.indexOf(text) === index)`
de-duplication: keep the first occurrence of each text. -/
def dedupFirst (l : List (List Char)) : List (List Char) :=
  l.foldl (fun acc t => if acc.contains t then acc else acc ++ [t]) []

/-- Per-slide text extraction of `extractTextFromPPTX`: trimmed non-empty
`<a:t>` run captures, then cleaned non-empty paragraph matches, first
occurrences only, joined by single spaces and trimmed. -/
def slideTextOf (slideXml : List Char) : List Char :=
  let textFromRuns := ((scanTextRuns slideXml).map trimChars).filter
    (fun t => !t.isEmpty)
  let textFromParagraphs := ((scanParagraphs slideXml).map
      (fun m => trimChars (collapseWsRuns (stripTagsWith [' '] m)))).filter
    (fun t => !t.isEmpty)
  trimChars (List.intercalate [' '] (dedupFirst (textFromRuns ++ textFromParagraphs)))

/-- Case-insensitive ASCII prefix test (the pattern must be lowercase). -/
def ciStartsWith (pat t : List Char) : Bool :=
  (t.take pat.length).map Char.toLower == pat

/-- `/^(Click to edit|Add your|Sample)/i` on master/layout run text. -/
def boilerplateStart (t : List Char) : Bool :=
  ciStartsWith "click to edit".data t || ciStartsWith "add your".data t
    || ciStartsWith "sample".data t

/-- Master/layout text extraction of `extractTextFromPPTX`: trimmed `<a:t>`
captures, boilerplate filtered out, joined by single spaces. -/
def masterTextOf (xml : List Char) : List Char :=
  List.intercalate [' '] (((scanTextRuns xml).map trimChars).filter
    (fun t => !t.isEmpty && !boilerplateStart t))

/-- `String.prototype.includes` on character lists (`isSubAt` tests a
prefix match of the needle at the current position). -/
def isSubAt : List Char → List Char → Bool
  | [], _ => true
  | _ :: _, [] => false
  | n :: ns, h :: hs => n = h && isSubAt ns hs

/-- `hay.includes(needle)`. -/
def containsSub : List Char → List Char → Bool
  | [], needle => needle.isEmpty
  | h :: hs, needle => isSubAt needle (h :: hs) || containsSub hs needle

/-- `pptxData.file(name)`: exact-path lookup in the archive. -/
def zipFileLookup (zip : List (String × String)) (name : String) : Option String :=
  (zip.find? (fun e => e.1 == name)).map Prod.snd

/-- `extractTextFromPPTX` (`fileProcessing.ts` lines 56-150).  The ZIP
archive is an association list of file paths and decoded XML contents in
archive enumeration order.  Slide paths are collected by the
`/ppt\/slides\/slide\d+\.xml$/` filter, sorted by their numeric slide index
(`.sort((a, b) => aNum - bNum)`, a stable ascending sort), and each slide
contributes its text plus a blank line; the two fixed master/layout parts
are appended when present, non-boilerplate, and not already contained. -/
def extractTextFromPPTX (zip : List (String × String)) : Except String String :=
  let slideFiles := (zip.map Prod.fst).filter isSlidePath
  let sortedSlides := List.insertionSort (fun a b => slideNum a ≤ slideNum b) slideFiles
  let slidesText := sortedSlides.foldl (fun acc sf =>
    match zipFileLookup zip sf with
    | some xml =>
      let st := slideTextOf xml.data
      if st.isEmpty then acc else acc ++ st ++ ['\n', '\n']
    | none => acc) []
  let withMasters := ["ppt/slideMasters/slideMaster1.xml",
      "ppt/slideLayouts/slideLayout1.xml"].foldl (fun acc mf =>
    match zipFileLookup zip mf with
    | some xml =>
      let mt := masterTextOf xml.data
      if !mt.isEmpty && !containsSub acc mt then acc ++ mt ++ ['\n', '\n']
      else acc
    | none => acc) slidesText
  if (trimChars withMasters).isEmpty then
    Except.error "No text content found in PowerPoint file"
  else Except.ok ⟨trimChars withMasters⟩

/-- A PPTX-style archive whose ten slide parts are listed in lexical path
order (`slide1`, `slide10`, `slide2`, ..., `slide9`), each slide carrying a
distinct marker text run. -/
def pptxOrderDemo : List (String × String) :=
  [("ppt/slides/slide1.xml", "<a:t>M1</a:t>"),
   ("ppt/slides/slide10.xml", "<a:t>M10</a:t>"),
   ("ppt/slides/slide2.xml", "<a:t>M2</a:t>"),
   ("ppt/slides/slide3.xml", "<a:t>M3</a:t>"),
   ("ppt/slides/slide4.xml", "<a:t>M4</a:t>"),
   ("ppt/slides/slide5.xml", "<a:t>M5</a:t>"),
   ("ppt/slides/slide6.xml", "<a:t>M6</a:t>"),
   ("ppt/slides/slide7.xml", "<a:t>M7</a:t>"),
   ("ppt/slides/slide8.xml", "<a:t>M8</a:t>"),
   ("ppt/slides/slide9.xml", "<a:t>M9</a:t>")]

/-- C7: `extractTextFromPPTX` processes slides sorted by their numeric slide
index: for every archive, the slide paths it walks are in ascending
`slideNum` order, and on the ten-slide demo archive (listed in lexical
order, where `slide10.xml` precedes `slide2.xml`) the extracted text carries
the markers in numeric order, slide 10 last. -/
theorem extractTextFromPPTX_slide_order :
    (∀ zip : List (String × String),
      List.Pairwise (· ≤ ·)
        ((List.insertionSort (fun a b => slideNum a ≤ slideNum b)
          ((zip.map Prod.fst).filter isSlidePath)).map slideNum))
    ∧ extractTextFromPPTX pptxOrderDemo =
        Except.ok "M1\n\nM2\n\nM3\n\nM4\n\nM5\n\nM6\n\nM7\n\nM8\n\nM9\n\nM10" := by
  constructor
  · intro zip
    rw [List.pairwise_map]
    haveI : IsTotal String (fun a b => slideNum a ≤ slideNum b) :=
      ⟨fun a b => Nat.le_total (slideNum a) (slideNum b)⟩
    haveI : IsTrans String (fun a b => slideNum a ≤ slideNum b) :=
      ⟨fun _ _ _ hab hbc => Nat.le_trans hab hbc⟩
    exact List.sorted_insertionSort _ _
  · rfl

/-- The metadata of `ExtractedContent` (`fileProcessing.ts` lines 152-161);
the `extractedAt : Date` wall-clock field is I/O and not modeled. -/
structure ExtractedMetadata where
  fileName : String
  fileType : String
  pages : Option Nat
  wordCount : Nat
deriving DecidableEq

/-- `ExtractedContent`. -/
structure ExtractedContent where
  text : String
  metadata : ExtractedMetadata
deriving DecidableEq

/-- Outcome of an external parser library call (pdf-parse / mammoth). -/
inductive ParseOutcome where
  | ok (text : String) (pages : Option Nat)
  | fail (msg : String)

/-- The external dependencies of `extractTextFromFile`: the PDF and Word
parsers and jszip's decoding of the buffer into an archive.  They are
inputs of the embedding, universally quantified in the theorems. -/
structure ExternalParsers where
  pdf : String → ParseOutcome
  word : String → ParseOutcome
  zipOf : String → Except String (List (String × String))

/-- String-level `hay.includes(needle)`. -/
def containsSubStr (hay needle : String) : Bool :=
  containsSub hay.data needle.data

/-- The PDF error-message dispatch of `extractTextFromFile`
(lines 179-194). -/
def pdfErrorWrap (m : String) : String :=
  if containsSubStr m "ENOENT" || containsSubStr m "test/data" then
    "PDF processing library not properly installed. Please try uploading a text file instead."
  else if containsSubStr m "Invalid PDF" then
    "Invalid or corrupted PDF file. Please try re-saving the PDF or converting to text format."
  else if containsSubStr m "PDF library not available" then m
  else if containsSubStr m "No text content found" then m
  else "Failed to process PDF: " ++ m
    ++ ". Please try saving as a text file or ensure the PDF contains readable text."

/-- The PowerPoint error-message dispatch of `extractTextFromFile`
(lines 220-232). -/
def pptErrorWrap (m : String) : String :=
  if containsSubStr m "No text content found" then
    "No readable text found in PowerPoint file. Please ensure your slides contain text content, or try saving each slide as a text file."
  else if containsSubStr m "Legacy PPT format" then m
  else "Failed to process PowerPoint: " ++ m
    ++ ". Please try saving slides as a text file or ensure the file is a valid PPTX format."

/-- The MIME types with a dedicated branch in the dispatch switch of
`extractTextFromFile` (lines 168-238). -/
def dispatchMimeTypes : List String :=
  ["application/pdf",
   "application/vnd.openxmlformats-officedocument.wordprocessingml.document",
   "application/msword",
   "application/vnd.openxmlformats-officedocument.presentationml.presentation",
   "application/vnd.ms-powerpoint",
   "application/powerpoint",
   "application/x-mspowerpoint",
   "text/plain"]

/-- The MIME dispatch of `extractTextFromFile` (lines 168-250), producing
the pre-cleanup text and optional page count.  `buffer.toString('utf-8')`
is the identity on the modeled (already decoded) buffer. -/
def extractDispatch (P : ExternalParsers) (buffer mimeType : String) :
    Except String (String × Option Nat) :=
  if mimeType = "application/pdf" then
    match P.pdf buffer with
    | .ok t pg =>
      if (trimChars t.data).isEmpty then
        Except.error "No text content found in PDF. The PDF may be image-based or protected. Please try saving as a text file."
      else Except.ok (t, pg)
    | .fail m => Except.error (pdfErrorWrap m)
  else if mimeType = "application/vnd.openxmlformats-officedocument.wordprocessingml.document"
      ∨ mimeType = "application/msword" then
    match P.word buffer with
    | .ok t _ => Except.ok (t, none)
    | .fail m => Except.error ("Failed to process Word document: " ++ m
        ++ ". Please try saving as a text file.")
  else if mimeType = "application/vnd.openxmlformats-officedocument.presentationml.presentation" then
    match P.zipOf buffer with
    | .ok zip =>
      match extractTextFromPPTX zip with
      | .ok t => Except.ok (t, none)
      | .error m => Except.error (pptErrorWrap m)
    | .error m => Except.error (pptErrorWrap ("Failed to parse PowerPoint file: " ++ m))
  else if mimeType = "application/vnd.ms-powerpoint" ∨ mimeType = "application/powerpoint"
      ∨ mimeType = "application/x-mspowerpoint" then
    Except.error "Legacy PPT format not supported. Please save your PowerPoint as PPTX format for text extraction."
  else if mimeType = "text/plain" then
    Except.ok (buffer, none)
  else
    if buffer.length < 10 ∨ buffer.data.contains (Char.ofNat 0) = true
        ∨ buffer.data.contains (Char.ofNat 255) = true then
      Except.error ("Unsupported file type: " ++ mimeType
        ++ ". Please upload PDF, Word, PowerPoint, or text files.")
    else Except.ok (buffer, none)

/-- The shared tail of `extractTextFromFile` (lines 252-273): whitespace
cleanup, the 100-character minimum, and the metadata construction with
`wordCount = text.split(/\s+/).length`. -/
def finishExtraction (raw fileName mimeType : String) (pages : Option Nat) :
    Except String ExtractedContent :=
  let text := cleanupText raw
  if text.isEmpty ∨ text.length < 100 then
    Except.error "File appears to be empty or too short for processing"
  else
    Except.ok ⟨text, ⟨fileName, mimeType, pages, (jsSplitWs text).length⟩⟩

/-- `extractTextFromFile` (lines 163-277): dispatch, then the shared tail,
with the outer catch prefixing every failure message. -/
def extractTextFromFile (P : ExternalParsers) (buffer fileName mimeType : String) :
    Except String ExtractedContent :=
  match extractDispatch P buffer mimeType with
  | .ok (t, pages) =>
    (finishExtraction t fileName mimeType pages).mapError
      (fun m => "Failed to extract text from file: " ++ m)
  | .error m => Except.error ("Failed to extract text from file: " ++ m)

/-- A `fetch` response as consumed by `extractTextFromUrl`. -/
structure UrlResponse where
  ok : Bool
  statusText : String
  body : String

/-- `\b` after the scanned opening literal: the next character must not be
a word character (or the input ends). -/
def wordBoundaryAfter : List Char → Bool
  | [] => true
  | c :: _ => !isWordChar c

/-- Drops a case-insensitive literal prefix (pattern given lowercase). -/
def dropCiLit (pat t : List Char) : Option (List Char) :=
  if ciStartsWith pat t then some (t.drop pat.length) else none

/-- The remainder of the input after the first case-insensitive occurrence
of `pat`. -/
def splitAtCiLit (pat : List Char) : List Char → Option (List Char)
  | [] => none
  | c :: cs =>
    match dropCiLit pat (c :: cs) with
    | some rest => some rest
    | none => splitAtCiLit pat cs

/-- `replace(/<open\b[^<]*(?:(?!<\/close>)<[^<]*)*<\/close>/gi, '')`:
removes each block from a case-insensitive opening literal (followed by a
word boundary) through the first matching closing literal (fueled scanner;
each removal consumes at least the opening literal). -/
def removeCiBlocksGo (openPat closePat : List Char) (fuel : Nat) :
    List Char → List Char :=
  match fuel with
  | 0 => fun _ => []
  | fuel + 1 => fun cs =>
    match cs with
    | [] => []
    | c :: cs' =>
      match dropCiLit openPat (c :: cs') with
      | some afterOpen =>
        if wordBoundaryAfter afterOpen then
          match splitAtCiLit closePat afterOpen with
          | some rest => removeCiBlocksGo openPat closePat fuel rest
          | none => c :: removeCiBlocksGo openPat closePat fuel cs'
        else c :: removeCiBlocksGo openPat closePat fuel cs'
      | none => c :: removeCiBlocksGo openPat closePat fuel cs'

/-- Block removal over a whole input. -/
def removeCiBlocks (openPat closePat cs : List Char) : List Char :=
  removeCiBlocksGo openPat closePat cs.length cs

/-- `replace(/&nbsp;/g, ' ')` (fueled scanner). -/
def replaceNbspGo (fuel : Nat) : List Char → List Char :=
  match fuel with
  | 0 => fun _ => []
  | fuel + 1 => fun cs =>
    match cs with
    | [] => []
    | c :: cs' =>
      match dropLit "&nbsp;".data (c :: cs') with
      | some rest => ' ' :: replaceNbspGo fuel rest
      | none => c :: replaceNbspGo fuel cs'

/-- `replace(/&nbsp;/g, ' ')`. -/
def replaceNbsp (cs : List Char) : List Char :=
  replaceNbspGo cs.length cs

/-- `replace(/&[a-z]+;/gi, '')` (fueled scanner). -/
def removeEntitiesGo (fuel : Nat) : List Char → List Char :=
  match fuel with
  | 0 => fun _ => []
  | fuel + 1 => fun cs =>
    match cs with
    | [] => []
    | c :: cs' =>
      if c = '&' then
        match cs'.dropWhile Char.isAlpha with
        | ';' :: rest =>
          if (cs'.takeWhile Char.isAlpha).isEmpty then c :: removeEntitiesGo fuel cs'
          else removeEntitiesGo fuel rest
        | _ => c :: removeEntitiesGo fuel cs'
      else c :: removeEntitiesGo fuel cs'

/-- `replace(/&[a-z]+;/gi, '')`. -/
def removeEntities (cs : List Char) : List Char :=
  removeEntitiesGo cs.length cs

/-- The HTML-stripping pipeline of `extractTextFromUrl` (lines 329-336):
script blocks, style blocks, remaining tags, `&nbsp;`, other entities,
whitespace collapse, trim. -/
def stripHtml (body : List Char) : List Char :=
  trimChars (collapseWsRuns (removeEntities (replaceNbsp (stripTagsWith []
    (removeCiBlocks "<style".data "</style>".data
      (removeCiBlocks "<script".data "</script>".data body))))))

/-- `extractTextFromUrl` (lines 317-356), with the fetched response an
input of the embedding and the outer catch prefixing every failure. -/
def extractTextFromUrl (url : String) (response : UrlResponse) :
    Except String ExtractedContent :=
  (if !response.ok then
    Except.error ("Failed to fetch URL: " ++ response.statusText)
  else
    let text : String := ⟨stripHtml response.body.data⟩
    if text.isEmpty ∨ text.length < 100 then
      Except.error "URL content appears to be empty or too short for processing"
    else
      Except.ok ⟨text, ⟨url, "text/html", none, (jsSplitWs text).length⟩⟩).mapError
    (fun m => "Failed to extract text from URL: " ++ m)

/-- Trivial parser inputs (every library call fails), used to close
universally quantified statements at concrete inputs. -/
def trivialParsers : ExternalParsers :=
  ⟨fun _ => ParseOutcome.fail "unavailable", fun _ => ParseOutcome.fail "unavailable",
   fun _ => Except.error "unavailable"⟩

theorem mem_of_mem_dropWhile {α : Type} {p : α → Bool} :
    ∀ {l : List α} {c : α}, c ∈ l.dropWhile p → c ∈ l := by
  intro l
  induction l with
  | nil => intro c h; simp at h
  | cons a l ih =>
    intro c h
    by_cases ha : p a
    · rw [List.dropWhile_cons_of_pos ha] at h
      exact List.mem_cons_of_mem a (ih h)
    · rw [List.dropWhile_cons_of_neg ha] at h
      exact h

theorem mem_of_mem_trimChars {cs : List Char} {c : Char} (h : c ∈ trimChars cs) :
    c ∈ cs := by
  simp only [trimChars, List.mem_reverse] at h
  have h2 := mem_of_mem_dropWhile h
  rw [List.mem_reverse] at h2
  exact mem_of_mem_dropWhile h2

theorem collapseWsGo_ws_eq_space :
    ∀ (cs : List Char) (b : Bool) (c : Char), c ∈ collapseWsGo b cs →
      isWsChar c = true → c = ' ' := by
  intro cs
  induction cs with
  | nil => intro b c h; simp [collapseWsGo] at h
  | cons d cs ih =>
    intro b c h hw
    by_cases hd : isWsChar d
    · cases b with
      | true =>
        simp only [collapseWsGo, hd, if_pos, if_true] at h
        exact ih true c h hw
      | false =>
        simp only [collapseWsGo, hd, if_pos] at h
        rcases List.mem_cons.1 h with h | h
        · exact h
        · exact ih true c h hw
    · simp only [collapseWsGo, hd] at h
      simp only [Bool.false_eq_true, if_false] at h
      rcases List.mem_cons.1 h with h | h
      · rw [h] at hw
        exact absurd hw (by simpa using hd)
      · exact ih false c h hw

theorem collapseWsGo_true_head :
    ∀ (cs : List Char) (c : Char), (collapseWsGo true cs).head? = some c →
      isWsChar c = false := by
  intro cs
  induction cs with
  | nil => intro c h; simp [collapseWsGo] at h
  | cons d cs ih =>
    intro c h
    by_cases hd : isWsChar d
    · simp only [collapseWsGo, hd, if_pos, if_true] at h
      exact ih c h
    · simp only [collapseWsGo, hd] at h
      simp only [Bool.false_eq_true, if_false, List.head?_cons] at h
      cases h
      simpa using hd

theorem collapseWsGo_chain' :
    ∀ (cs : List Char) (b : Bool),
      List.Chain' (fun a b => isWsChar a = false ∨ isWsChar b = false)
        (collapseWsGo b cs) := by
  intro cs
  induction cs with
  | nil => intro b; simp [collapseWsGo]
  | cons d cs ih =>
    intro b
    by_cases hd : isWsChar d
    · cases b with
      | true =>
        simpa only [collapseWsGo, hd, if_pos, if_true] using ih true
      | false =>
        simp only [collapseWsGo, hd, if_pos, Bool.false_eq_true, if_false]
        rw [List.chain'_cons']
        refine ⟨fun y hy => Or.inr (collapseWsGo_true_head cs y hy), ih true⟩
    · simp only [collapseWsGo, hd, Bool.false_eq_true, if_false]
      rw [List.chain'_cons']
      exact ⟨fun y _ => Or.inl (by simpa using hd), ih false⟩

theorem cblGo_no_newline :
    ∀ cs : List Char, '\n' ∉ cs → cblGo none cs = cs := by
  intro cs
  induction cs with
  | nil => intro _; rfl
  | cons c cs ih =>
    intro h
    have hc : c ≠ '\n' := fun he => h (he ▸ List.mem_cons_self c cs)
    have hcs : '\n' ∉ cs := fun hm => h (List.mem_cons_of_mem c hm)
    simp only [cblGo, if_neg hc]
    rw [ih hcs]

theorem cleanBlankLines_collapse (cs : List Char) :
    cleanBlankLines (collapseWsRuns cs) = collapseWsRuns cs := by
  apply cblGo_no_newline
  intro hmem
  have := collapseWsGo_ws_eq_space cs false '\n' hmem (by decide)
  exact absurd this (by decide)

theorem head?_dropWhile_false {α : Type} {p : α → Bool} :
    ∀ {l : List α} {c : α}, (l.dropWhile p).head? = some c → p c = false := by
  intro l
  induction l with
  | nil => intro c h; simp at h
  | cons a l ih =>
    intro c h
    by_cases ha : p a
    · rw [List.dropWhile_cons_of_pos ha] at h
      exact ih h
    · rw [List.dropWhile_cons_of_neg ha] at h
      simp only [List.head?_cons] at h
      cases h
      simpa using ha

theorem getLast?_dropWhile_eq {α : Type} {p : α → Bool} :
    ∀ {l : List α}, l.dropWhile p ≠ [] → (l.dropWhile p).getLast? = l.getLast? := by
  intro l
  induction l with
  | nil => intro h; simp at h
  | cons a l ih =>
    intro h
    by_cases ha : p a
    · rw [List.dropWhile_cons_of_pos ha] at h ⊢
      have hl : l ≠ [] := by
        intro he
        rw [he] at h
        simp at h
      rw [ih h]
      cases l with
      | nil => exact absurd rfl hl
      | cons b l' => rw [List.getLast?_cons_cons]
    · rw [List.dropWhile_cons_of_neg ha]

theorem chain'_dropWhile {α : Type} {R : α → α → Prop} {p : α → Bool} :
    ∀ {l : List α}, List.Chain' R l → List.Chain' R (l.dropWhile p) := by
  intro l
  induction l with
  | nil => intro h; simp at h; simp [h]
  | cons a l ih =>
    intro h
    by_cases ha : p a
    · rw [List.dropWhile_cons_of_pos ha]
      exact ih (List.chain'_cons'.1 h).2
    · rw [List.dropWhile_cons_of_neg ha]
      exact h

theorem chain'_reverse_symm {l : List Char} :
    List.Chain' (fun a b => isWsChar a = false ∨ isWsChar b = false) l →
    List.Chain' (fun a b => isWsChar a = false ∨ isWsChar b = false) l.reverse := by
  intro h
  rw [List.chain'_reverse]
  exact h.imp fun a b hab => hab.symm

theorem trimChars_chain' {cs : List Char}
    (h : List.Chain' (fun a b => isWsChar a = false ∨ isWsChar b = false) cs) :
    List.Chain' (fun a b => isWsChar a = false ∨ isWsChar b = false)
      (trimChars cs) := by
  exact chain'_reverse_symm (chain'_dropWhile (chain'_reverse_symm (chain'_dropWhile h)))

theorem trimChars_head?_not_ws {cs : List Char} {c : Char}
    (h : (trimChars cs).head? = some c) : isWsChar c = false := by
  rw [trimChars, List.head?_reverse] at h
  have hne : (cs.dropWhile isWsChar).reverse.dropWhile isWsChar ≠ [] := by
    intro he
    rw [he] at h
    simp at h
  rw [getLast?_dropWhile_eq hne, List.getLast?_reverse] at h
  exact head?_dropWhile_false h

theorem trimChars_getLast?_not_ws {cs : List Char} {c : Char}
    (h : (trimChars cs).getLast? = some c) : isWsChar c = false := by
  rw [trimChars, List.getLast?_reverse] at h
  exact head?_dropWhile_false h

/-- One hundred spaces: a `text/plain` input of length 100. -/
def hundredSpaces : String := ⟨List.replicate 100 ' '⟩

/-- C5 counterexample: the 100-space buffer has length ≥ 100, yet
`extractTextFromFile` fails (the cleanup collapses it to the empty string,
which is below the 100-character minimum), refuting the claim that every
plain-text input of length ≥ 100 extracts successfully. -/
theorem extract_plain_text_counterexample :
    hundredSpaces.length = 100
    ∧ extractTextFromFile trivialParsers hundredSpaces "file.txt" "text/plain"
        = Except.error "Failed to extract text from file: File appears to be empty or too short for processing" :=
  ⟨rfl, rfl⟩

/-- C5 (amended): for every `text/plain` buffer whose cleaned-up text still
has at least 100 characters, extraction succeeds and returns exactly the
cleaned-up input: every whitespace run collapsed (no two adjacent whitespace
characters remain, each remaining whitespace character is a single space)
and no leading or trailing whitespace. -/
theorem extract_plain_text_spec (P : ExternalParsers) (buffer fileName : String)
    (h : 100 ≤ (cleanupText buffer).length) :
    extractTextFromFile P buffer fileName "text/plain"
        = Except.ok ⟨cleanupText buffer,
            ⟨fileName, "text/plain", none, (jsSplitWs (cleanupText buffer)).length⟩⟩
    ∧ (∀ c ∈ (cleanupText buffer).data, isWsChar c = true → c = ' ')
    ∧ List.Chain' (fun a b => isWsChar a = false ∨ isWsChar b = false)
        (cleanupText buffer).data
    ∧ (∀ c, (cleanupText buffer).data.head? = some c → isWsChar c = false)
    ∧ (∀ c, (cleanupText buffer).data.getLast? = some c → isWsChar c = false) := by
  have hdata : (cleanupText buffer).data
      = trimChars (collapseWsRuns buffer.data) := by
    show cleanupChars buffer.data = _
    rw [cleanupChars, cleanBlankLines_collapse]
  refine ⟨?_, ?_, ?_, ?_, ?_⟩
  · have hd : extractDispatch P buffer "text/plain" = Except.ok (buffer, none) := rfl
    simp only [extractTextFromFile, hd]
    have hfe : finishExtraction buffer fileName "text/plain" none
        = Except.ok ⟨cleanupText buffer,
            ⟨fileName, "text/plain", none, (jsSplitWs (cleanupText buffer)).length⟩⟩ := by
      simp only [finishExtraction]
      rw [if_neg]
      intro hor
      rcases hor with he | hlt
      · rw [(String.isEmpty_iff _).mp he] at h
        exact absurd h (by decide)
      · omega
    rw [hfe]
    rfl
  · intro c hc hw
    rw [hdata] at hc
    exact collapseWsGo_ws_eq_space buffer.data false c (mem_of_mem_trimChars hc) hw
  · rw [hdata]
    exact trimChars_chain' (collapseWsGo_chain' buffer.data false)
  · intro c hc
    rw [hdata] at hc
    exact trimChars_head?_not_ws hc
  · intro c hc
    rw [hdata] at hc
    exact trimChars_getLast?_not_ws hc

/-- A 120-character whitespace-free `text/plain` buffer. -/
def plainDemo : String := ⟨List.replicate 120 'a'⟩

set_option maxHeartbeats 1600000 in
set_option maxRecDepth 40000 in
theorem extract_plain_text_spec_w :
    extractTextFromFile trivialParsers plainDemo "f.txt" "text/plain"
        = Except.ok ⟨cleanupText plainDemo,
            ⟨"f.txt", "text/plain", none, (jsSplitWs (cleanupText plainDemo)).length⟩⟩ :=
  (extract_plain_text_spec trivialParsers plainDemo "f.txt" (by decide)).1

/-- C6: whenever the extracted text is shorter than 100 characters after
cleanup, the shared tail of the extractor fails with the empty/too-short
error — so no `ExtractedContent` is returned for such an input — and
`extractTextFromFile` surfaces it through the outer catch (shown on the
`text/plain` route, whose dispatch is the identity). -/
theorem extract_short_input_fails (raw fileName mimeType : String)
    (pages : Option Nat) (P : ExternalParsers)
    (h : (cleanupText raw).length < 100) :
    finishExtraction raw fileName mimeType pages
        = Except.error "File appears to be empty or too short for processing"
    ∧ extractTextFromFile P raw fileName "text/plain"
        = Except.error "Failed to extract text from file: File appears to be empty or too short for processing" := by
  have h1 : ∀ fn mt pg, finishExtraction raw fn mt pg
      = Except.error "File appears to be empty or too short for processing" := by
    intro fn mt pg
    simp only [finishExtraction]
    rw [if_pos (Or.inr h)]
  refine ⟨h1 fileName mimeType pages, ?_⟩
  have hd : extractDispatch P raw "text/plain" = Except.ok (raw, none) := rfl
  simp only [extractTextFromFile, hd]
  rw [h1 fileName "text/plain" none]
  rfl

theorem extract_short_input_fails_w :
    finishExtraction "hi" "f.txt" "text/plain" none
        = Except.error "File appears to be empty or too short for processing"
    ∧ extractTextFromFile trivialParsers "hi" "f.txt" "text/plain"
        = Except.error "Failed to extract text from file: File appears to be empty or too short for processing" :=
  extract_short_input_fails "hi" "f.txt" "text/plain" none trivialParsers (by decide)

/-- C8: for MIME types outside the dispatch set, the best-effort decode of
the buffer is rejected with the unsupported-type error whenever the decoded
content contains `'\x00'` or `'\xFF'` or is shorter than 10 characters.
(The source tests the decoded string; a raw `0xFF` byte would decode to
U+FFFD, so `'\xFF'` here is the decoded character U+00FF.) -/
theorem extract_unknown_type_rejects (P : ExternalParsers)
    (buffer fileName mimeType : String)
    (hmime : mimeType ∉ dispatchMimeTypes)
    (h : buffer.data.contains (Char.ofNat 0) = true
        ∨ buffer.data.contains (Char.ofNat 255) = true ∨ buffer.length < 10) :
    extractTextFromFile P buffer fileName mimeType
      = Except.error ("Failed to extract text from file: "
          ++ ("Unsupported file type: " ++ mimeType
            ++ ". Please upload PDF, Word, PowerPoint, or text files.")) := by
  simp only [dispatchMimeTypes, List.mem_cons, List.not_mem_nil, or_false,
    not_or] at hmime
  obtain ⟨h1, h2, h3, h4, h5, h6, h7, h8⟩ := hmime
  have hd : extractDispatch P buffer mimeType
      = Except.error ("Unsupported file type: " ++ mimeType
          ++ ". Please upload PDF, Word, PowerPoint, or text files.") := by
    simp only [extractDispatch]
    rw [if_neg h1, if_neg (not_or.mpr ⟨h2, h3⟩), if_neg h4,
      if_neg (not_or.mpr ⟨h5, not_or.mpr ⟨h6, h7⟩⟩), if_neg h8,
      if_pos (by tauto)]
  simp only [extractTextFromFile, hd]

theorem extract_unknown_type_rejects_w :
    extractTextFromFile trivialParsers "ab" "f.bin" "image/png"
      = Except.error ("Failed to extract text from file: "
          ++ ("Unsupported file type: " ++ "image/png"
            ++ ". Please upload PDF, Word, PowerPoint, or text files.")) :=
  extract_unknown_type_rejects trivialParsers "ab" "f.bin" "image/png" (by decide)
    (Or.inr (Or.inr (by decide)))

theorem jsSplitWsGo_ne_nil : ∀ (b : Bool) (cs cur : List Char),
    jsSplitWsGo b cs cur ≠ [] := by
  intro b cs
  induction cs generalizing b with
  | nil => intro cur; simp [jsSplitWsGo]
  | cons c cs ih =>
    intro cur
    by_cases hc : isWsChar c
    · cases b with
      | true => simpa only [jsSplitWsGo, hc, if_pos, if_true] using ih true cur
      | false =>
        simp only [jsSplitWsGo, hc, if_pos, Bool.false_eq_true, if_false]
        simp
    · simp only [jsSplitWsGo, hc, Bool.false_eq_true, if_false]
      exact ih false (c :: cur)

theorem jsSplitWs_length_pos (s : String) : 1 ≤ (jsSplitWs s).length := by
  rw [jsSplitWs, List.length_map]
  have := jsSplitWsGo_ne_nil false s.data []
  cases hsp : jsSplitWsGo false s.data [] with
  | nil => exact absurd hsp this
  | cons a l => simp [jsSplitWsList, hsp]

theorem finishExtraction_wordCount {raw fileName mimeType : String}
    {pages : Option Nat} {ec : ExtractedContent}
    (h : finishExtraction raw fileName mimeType pages = Except.ok ec) :
    ec.metadata.wordCount = (jsSplitWs ec.text).length ∧ 1 ≤ ec.metadata.wordCount := by
  simp only [finishExtraction] at h
  by_cases hcond : (cleanupText raw).isEmpty = true ∨ (cleanupText raw).length < 100
  · rw [if_pos hcond] at h
    cases h
  · rw [if_neg hcond] at h
    cases h
    exact ⟨rfl, jsSplitWs_length_pos _⟩

set_option maxHeartbeats 1600000 in
/-- C9: every `ExtractedContent` produced by the file extractor or by the
URL extractor satisfies `wordCount = text.split(/\s+/).length` (and that
split is never empty, so `wordCount ≥ 1`). -/
theorem wordCount_invariant :
    (∀ (raw fileName mimeType : String) (pages : Option Nat) (ec : ExtractedContent),
      finishExtraction raw fileName mimeType pages = Except.ok ec →
      ec.metadata.wordCount = (jsSplitWs ec.text).length ∧ 1 ≤ ec.metadata.wordCount)
    ∧ (∀ (P : ExternalParsers) (buffer fileName mimeType : String)
        (ec : ExtractedContent),
      extractTextFromFile P buffer fileName mimeType = Except.ok ec →
      ec.metadata.wordCount = (jsSplitWs ec.text).length)
    ∧ (∀ (url : String) (response : UrlResponse) (ec : ExtractedContent),
      extractTextFromUrl url response = Except.ok ec →
      ec.metadata.wordCount = (jsSplitWs ec.text).length) := by
  refine ⟨fun raw fn mt pg ec h => finishExtraction_wordCount h, ?_, ?_⟩
  · intro P buffer fileName mimeType ec h
    cases hdp : extractDispatch P buffer mimeType with
    | error m =>
      simp only [extractTextFromFile, hdp] at h
      exact Except.noConfusion h
    | ok tp =>
      obtain ⟨t, pg⟩ := tp
      simp only [extractTextFromFile, hdp] at h
      cases hfe : finishExtraction t fileName mimeType pg with
      | error m =>
        rw [hfe] at h
        simp [Except.mapError] at h
      | ok ec' =>
        rw [hfe] at h
        simp only [Except.mapError] at h
        cases h
        exact (finishExtraction_wordCount hfe).1
  · intro url response ec h
    simp only [extractTextFromUrl] at h
    by_cases hok : !response.ok
    · rw [if_pos hok] at h
      cases h
    · rw [if_neg hok] at h
      by_cases hcond : (⟨stripHtml response.body.data⟩ : String).isEmpty = true
          ∨ (⟨stripHtml response.body.data⟩ : String).length < 100
      · rw [if_pos hcond] at h
        cases h
      · rw [if_neg hcond] at h
        cases h
        exact rfl

set_option maxHeartbeats 1600000 in
set_option maxRecDepth 40000 in
theorem wordCount_invariant_w :
    (⟨plainDemo, ⟨"f.txt", "text/plain", none, 1⟩⟩
        : ExtractedContent).metadata.wordCount
      = (jsSplitWs ((⟨plainDemo, ⟨"f.txt", "text/plain", none, 1⟩⟩
        : ExtractedContent)).text).length
    ∧ 1 ≤ (⟨plainDemo, ⟨"f.txt", "text/plain", none, 1⟩⟩
        : ExtractedContent).metadata.wordCount :=
  wordCount_invariant.1 plainDemo "f.txt" "text/plain" none _ rfl

/-- A submitted quiz answer (`selectedAnswers[question.id]`): a choice
index for multiple-choice, or the category-to-items placement object for
drag-drop (insertion-ordered, unique keys in JS). -/
inductive UserAnswer where
  | choice (idx : Int)
  | dragMap (entries : List (String × List String))

/-- A quiz question as read by `calculateScore` (`GameView.tsx` lines
44-63, 148-200); display-only fields (question text, options, explanation,
media, difficulty, items, categories) are omitted as unused by the
calculator. -/
structure QuizQuestion where
  id : String
  type : Option String
  answerIndex : Option Int
  correctMapping : Option (List (String × String))
  points : Option Nat

/-- `question.points || 10`: `undefined` and the falsy `0` both default to
10 points. -/
def questionPoints (q : QuizQuestion) : Nat :=
  match q.points with
  | some p => if p = 0 then 10 else p
  | none => 10

/-- The drag-drop correctness count (lines 164-175): for each canonical
`(item, correctCategory)` pair, each user entry whose category matches and
whose item list contains the item increments the counter.  A missing or
non-object answer counts zero. -/
def dragCorrectCount (mapping : List (String × String)) (ua : Option UserAnswer) :
    Nat :=
  match ua with
  | some (UserAnswer.dragMap entries) =>
    mapping.foldl (fun acc ic =>
      entries.foldl (fun acc2 ci =>
        if ci.1 = ic.2 ∧ ci.2.contains ic.1 then acc2 + 1 else acc2) acc) 0
  | _ => 0

/-- Fueled `⌊log₂⌋` on naturals (`0` for `0` and `1`); the fuel only bounds
the recursion depth, which is the number of halvings. -/
def natLog2Go : Nat → Nat → Nat
  | 0, _ => 0
  | fuel + 1, n => if 2 ≤ n then natLog2Go fuel (n / 2) + 1 else 0

/-- `⌊log₂ n⌋`. -/
def natLog2 (n : Nat) : Nat :=
  natLog2Go n n

/-- Rounds the positive fraction `a / b` to the binary64 grid with the
IEEE-754 round-to-nearest, ties-to-even rule (the rounding JS applies to
every arithmetic operation).  The result `(n, e)` denotes `n * 2 ^ e`: the
binade exponent `k` with `2 ^ k ≤ a / b < 2 ^ (k + 1)` is found from the
bit lengths and one cross-multiplied comparison, the value is scaled into
`[2 ^ 52, 2 ^ 53)`, and the scaled quotient is rounded on its remainder. -/
def roundPosFrac (a b : Nat) : Nat × Int :=
  let la := natLog2 a
  let lb := natLog2 b
  let k : Int := if b * 2 ^ la ≤ a * 2 ^ lb then (la : Int) - lb else (la : Int) - lb - 1
  let e : Int := k - 52
  let sn := a * 2 ^ (-e).toNat
  let sd := b * 2 ^ e.toNat
  let n := sn / sd
  let r := sn % sd
  let n' := if 2 * r < sd then n
            else if sd < 2 * r then n + 1
            else if n % 2 = 0 then n else n + 1
  (n', e)

/-- `Math.floor` of the non-negative dyadic value `n * 2 ^ e`. -/
def dyadicFloor (n : Nat) (e : Int) : Nat :=
  if 0 ≤ e then n * 2 ^ e.toNat else n / 2 ^ (-e).toNat

/-- `Math.floor((c / m) * questionPoints)` exactly as line 183 computes it
in IEEE-754 binary64: the division `c / m` is rounded to a double, the
product with `points` is rounded to a double, and the floor is exact.
(The `m = 0` case never reaches this expression in the source: the count
is then `0 = m` and the full-credit branch is taken first.) -/
def jsDragCredit (c m pts : Nat) : Nat :=
  if c = 0 then 0
  else
    let q := roundPosFrac c m
    let p := if 0 ≤ q.2 then roundPosFrac (q.1 * pts * 2 ^ q.2.toNat) 1
             else roundPosFrac (q.1 * pts) (2 ^ (-q.2).toNat)
    dyadicFloor p.1 p.2

/-- The drag-drop branch (lines 177-184): full points when every canonical
mapping is matched (an exact integer comparison in the source).  For the
partial-credit case the source computes `Math.floor((c / m) * points)` in
IEEE-754 doubles — embedded bit-exactly by `jsDragCredit` above — while
this definition keeps the exact natural division `c * pts / m`, the
idealization under which the C10 score bounds are analysed.  The two agree
whenever the double evaluation is exact, and the double result can fall
one below the exact floor otherwise: at `c = 3, m = 11, pts = 55` the
program grants 14 (`(3/11)*55` evaluates to `14.999999999999998`) where
the exact floor is 15 — see the C1 correction. -/
def dragDropCredit (mapping : List (String × String)) (ua : Option UserAnswer)
    (pts : Nat) : Nat × Bool :=
  let m := mapping.length
  let c := dragCorrectCount mapping ua
  if c = m then (pts, true) else (c * pts / m, false)

/-- `userAnswer === question.answerIndex` (line 187): strict equality, with
`undefined === undefined` evaluating to true and an object never equal to a
number or `undefined`. -/
def mcMatches (ua : Option UserAnswer) (ai : Option Int) : Bool :=
  match ua, ai with
  | none, none => true
  | some (UserAnswer.choice i), some j => i == j
  | _, _ => false

/-- Credit and correctness for one question (lines 155-192): the drag-drop
branch is taken when `question.type === 'drag-drop'` and `correctMapping`
is present (any object is truthy), else the multiple-choice comparison. -/
def questionResult (answers : String → Option UserAnswer) (q : QuizQuestion) :
    Nat × Bool :=
  let ua := answers q.id
  let pts := questionPoints q
  if q.type = some "drag-drop" ∧ q.correctMapping ≠ none then
    dragDropCredit (q.correctMapping.getD []) ua pts
  else
    (if mcMatches ua q.answerIndex then pts else 0, mcMatches ua q.answerIndex)

/-- The result triple of `calculateScore`. -/
structure ScoreResult where
  score : Nat
  maxScore : Nat
  correctAnswers : Nat
deriving DecidableEq

/-- `calculateScore` (`GameView.tsx` lines 148-200): fold over the quiz
questions accumulating total score, max score (each question's points) and
the correct-answer count. -/
def calculateScore (questions : List QuizQuestion)
    (answers : String → Option UserAnswer) : ScoreResult :=
  questions.foldl (fun acc q =>
    let r := questionResult answers q
    ⟨acc.score + r.1, acc.maxScore + questionPoints q,
     acc.correctAnswers + (if r.2 then 1 else 0)⟩)
    ⟨0, 0, 0⟩

theorem foldl_if_count {α : Type} (p : α → Prop) [DecidablePred p] :
    ∀ (l : List α) (acc : Nat),
      l.foldl (fun a x => if p x then a + 1 else a) acc
        = acc + l.countP (fun x => decide (p x)) := by
  intro l
  induction l with
  | nil => intro acc; simp
  | cons x l ih =>
    intro acc
    by_cases hx : p x
    · simp only [List.foldl_cons, if_pos hx, ih, List.countP_cons]
      simp [hx]
      omega
    · simp only [List.foldl_cons, if_neg hx, ih, List.countP_cons]
      simp [hx]

theorem countP_key_le_one :
    ∀ {entries : List (String × List String)},
      (entries.map Prod.fst).Nodup → ∀ (cat : String) (p : String × List String → Prop)
      [DecidablePred p],
      entries.countP (fun ci => decide (ci.1 = cat ∧ p ci)) ≤ 1 := by
  intro entries
  induction entries with
  | nil => intro _ cat p _; simp
  | cons e es ih =>
    intro hnd cat p hp
    simp only [List.map_cons, List.nodup_cons] at hnd
    rw [List.countP_cons]
    by_cases he : e.1 = cat
    · have hzero : es.countP (fun ci => decide (ci.1 = cat ∧ p ci)) = 0 := by
        rw [List.countP_eq_zero]
        intro ci hci
        simp only [decide_eq_true_eq]
        intro hcon
        have hmem : ci.1 ∈ es.map Prod.fst := List.mem_map_of_mem Prod.fst hci
        rw [hcon.1, ← he] at hmem
        exact hnd.1 hmem
      rw [hzero]
      split <;> omega
    · have hpe : decide (e.1 = cat ∧ p e) = false := by
        simp [he]
      rw [hpe]
      have := ih hnd.2 cat p
      simp only [Bool.false_eq_true, if_false]
      omega

theorem dragCorrectCount_le {mapping : List (String × String)}
    {entries : List (String × List String)}
    (hnodup : (entries.map Prod.fst).Nodup) :
    dragCorrectCount mapping (some (UserAnswer.dragMap entries))
      ≤ mapping.length := by
  show mapping.foldl _ 0 ≤ _
  suffices h : ∀ (mp : List (String × String)) (acc : Nat),
      mp.foldl (fun acc ic =>
        entries.foldl (fun acc2 ci =>
          if ci.1 = ic.2 ∧ ci.2.contains ic.1 then acc2 + 1 else acc2) acc) acc
        ≤ acc + mp.length by
    simpa using h mapping 0
  intro mp
  induction mp with
  | nil => intro acc; simp
  | cons ic rest ih =>
    intro acc
    rw [List.foldl_cons]
    calc rest.foldl _ (entries.foldl (fun acc2 ci =>
          if ci.1 = ic.2 ∧ ci.2.contains ic.1 then acc2 + 1 else acc2) acc)
        ≤ entries.foldl (fun acc2 ci =>
            if ci.1 = ic.2 ∧ ci.2.contains ic.1 then acc2 + 1 else acc2) acc
            + rest.length := ih _
      _ ≤ acc + 1 + rest.length := by
          rw [foldl_if_count (fun ci => ci.1 = ic.2 ∧ ci.2.contains ic.1) entries acc]
          have hle := countP_key_le_one hnodup ic.2
            (fun ci => ci.2.contains ic.1 = true)
          omega
      _ = acc + (ic :: rest).length := by
          rw [List.length_cons]
          omega

theorem questionPoints_pos (q : QuizQuestion) : 1 ≤ questionPoints q := by
  cases hq : q.points with
  | none =>
    simp only [questionPoints, hq]
    omega
  | some p =>
    by_cases hp : p = 0
    · simp only [questionPoints, hq, if_pos hp]
      omega
    · simp only [questionPoints, hq, if_neg hp]
      omega

/-- The eleven-pair canonical mapping of the C1 counterexample. -/
def cexMapping : List (String × String) :=
  [("i1", "c1"), ("i2", "c2"), ("i3", "c3"), ("i4", "c4"), ("i5", "c5"),
   ("i6", "c6"), ("i7", "c7"), ("i8", "c8"), ("i9", "c9"), ("i10", "c10"),
   ("i11", "c11")]

/-- A user placement with exactly three correctly placed items. -/
def cexEntries : List (String × List String) :=
  [("c1", ["i1"]), ("c2", ["i2"]), ("c3", ["i3"])]

/-- The counterexample drag-drop question: 11 canonical pairs, 55 points. -/
def cexQ : QuizQuestion :=
  ⟨"q2", some "drag-drop", none, some cexMapping, some 55⟩

/-- The counterexample answer map. -/
def cexAnswers : String → Option UserAnswer :=
  fun i => if i = "q2" then some (UserAnswer.dragMap cexEntries) else none

/-- C1 counterexample: a drag-drop question with 11 canonical pairs and 55
points on which the user places exactly 3 items correctly is a realizable
input, and on it the program's credit `Math.floor((3/11)*55)`, computed in
IEEE-754 doubles (`(3/11)*55` evaluates to `14.999999999999998`), is 14 —
not the exact `floor((3/11)*55) = 15` the claim asserts. -/
theorem dragDrop_partial_credit_counterexample :
    questionPoints cexQ = 55
    ∧ cexMapping.length = 11
    ∧ (cexEntries.map Prod.fst).Nodup
    ∧ dragCorrectCount cexMapping (cexAnswers cexQ.id) = 3
    ∧ jsDragCredit 3 11 55 = 14
    ∧ 3 * 55 / 11 = 15 := by
  refine ⟨rfl, rfl, by decide, by decide, by decide, by decide⟩

/-- C1 (amended): for a drag-drop question carrying a canonical mapping and
a user placement object (whose category keys are unique, as JS object keys
are), the calculator counts at most one hit per canonical pair and takes
the full-credit branch — full points, counted correct — exactly when the
hit count `c` equals the number of canonical mappings `m` (an exact integer
comparison); otherwise it grants `Math.floor((c/m)*points)` evaluated in
IEEE-754 double precision (`jsDragCredit`), which equals the exact
`floor((c/m)*points)` whenever the double evaluation is exact — so with 4
canonical pairs, 2 correct placements and the default 10 points the credit
is `2 * 10 / 4 = 5` — but falls one below it on inputs such as
`c = 3, m = 11, points = 55`, where the program grants 14.  The
single-question score of `calculateScore` is exactly the per-question
credit. -/
theorem dragDrop_partial_credit (q : QuizQuestion)
    (answers : String → Option UserAnswer)
    (mapping : List (String × String)) (entries : List (String × List String))
    (hq : q.type = some "drag-drop") (hm : q.correctMapping = some mapping)
    (ha : answers q.id = some (UserAnswer.dragMap entries))
    (hnodup : (entries.map Prod.fst).Nodup) :
    dragCorrectCount mapping (answers q.id) ≤ mapping.length
    ∧ ((questionResult answers q).2 = true ↔
        dragCorrectCount mapping (answers q.id) = mapping.length)
    ∧ (dragCorrectCount mapping (answers q.id) = mapping.length →
        questionResult answers q = (questionPoints q, true))
    ∧ (calculateScore [q] answers).score = (questionResult answers q).1
    ∧ jsDragCredit 2 4 10 = 2 * 10 / 4
    ∧ jsDragCredit 3 11 55 = 14 ∧ 14 < 3 * 55 / 11 := by
  have hle : dragCorrectCount mapping (answers q.id) ≤ mapping.length := by
    rw [ha]
    exact dragCorrectCount_le hnodup
  have hres : questionResult answers q
      = dragDropCredit mapping (answers q.id) (questionPoints q) := by
    simp only [questionResult, hm, Option.getD_some]
    rw [if_pos ⟨hq, fun h => Option.noConfusion h⟩]
  have hbranch : questionResult answers q
      = (if dragCorrectCount mapping (answers q.id) = mapping.length
          then (questionPoints q, true)
          else (dragCorrectCount mapping (answers q.id) * questionPoints q
                  / mapping.length, false)) := by
    rw [hres, dragDropCredit]
  refine ⟨hle, ?_, ?_, by simp [calculateScore], by decide, by decide, by decide⟩
  · rw [hbranch]
    by_cases hc : dragCorrectCount mapping (answers q.id) = mapping.length
    · simp [hc]
    · simp [hc]
  · intro hc
    rw [hbranch, if_pos hc]

/-- The four-pair demo mapping of the C1 witness. -/
def demoMapping : List (String × String) :=
  [("i1", "c1"), ("i2", "c1"), ("i3", "c2"), ("i4", "c2")]

/-- A user placement with exactly two correctly placed items. -/
def demoEntries : List (String × List String) :=
  [("c1", ["i1"]), ("c2", ["i3"])]

/-- The demo drag-drop question (default 10 points). -/
def demoQ : QuizQuestion :=
  ⟨"q1", some "drag-drop", none, some demoMapping, none⟩

/-- The demo answer map. -/
def demoAnswers : String → Option UserAnswer :=
  fun i => if i = "q1" then some (UserAnswer.dragMap demoEntries) else none

theorem dragDrop_partial_credit_w :
    jsDragCredit 2 4 10 = 2 * 10 / 4
    ∧ dragCorrectCount demoMapping (demoAnswers demoQ.id) ≤ demoMapping.length :=
  ⟨(dragDrop_partial_credit demoQ demoAnswers demoMapping demoEntries
      rfl rfl rfl (by decide)).2.2.2.2.1,
   (dragDrop_partial_credit demoQ demoAnswers demoMapping demoEntries
      rfl rfl rfl (by decide)).1⟩

theorem calcFold_spec (answers : String → Option UserAnswer) :
    ∀ (qs : List QuizQuestion) (acc : ScoreResult),
      (qs.foldl (fun acc q =>
        let r := questionResult answers q
        (⟨acc.score + r.1, acc.maxScore + questionPoints q,
          acc.correctAnswers + (if r.2 then 1 else 0)⟩ : ScoreResult)) acc)
        = ⟨acc.score + (qs.map (fun q => (questionResult answers q).1)).sum,
           acc.maxScore + (qs.map questionPoints).sum,
           acc.correctAnswers
             + (qs.map (fun q =>
                 if (questionResult answers q).2 then 1 else 0)).sum⟩ := by
  intro qs
  induction qs with
  | nil =>
    intro acc
    obtain ⟨a, b, c⟩ := acc
    simp
  | cons q qs ih =>
    intro acc
    rw [List.foldl_cons, ih]
    simp only [List.map_cons, List.sum_cons, ScoreResult.mk.injEq]
    refine ⟨by omega, by omega, by omega⟩

theorem questionResult_le (answers : String → Option UserAnswer) (q : QuizQuestion)
    (hn : ∀ entries, answers q.id = some (UserAnswer.dragMap entries) →
      (entries.map Prod.fst).Nodup) :
    (questionResult answers q).1 ≤ questionPoints q := by
  by_cases hcond : q.type = some "drag-drop" ∧ q.correctMapping ≠ none
  · obtain ⟨ht, hcm⟩ := hcond
    cases hmo : q.correctMapping with
    | none => exact absurd hmo hcm
    | some mapping =>
      have hres : questionResult answers q
          = dragDropCredit mapping (answers q.id) (questionPoints q) := by
        simp only [questionResult, hmo, Option.getD_some]
        rw [if_pos ⟨ht, fun h => Option.noConfusion h⟩]
      rw [hres, dragDropCredit]
      have hc_le : dragCorrectCount mapping (answers q.id) ≤ mapping.length := by
        cases hua : answers q.id with
        | none => simp [dragCorrectCount]
        | some ua =>
          cases ua with
          | choice i => simp [dragCorrectCount]
          | dragMap entries => exact dragCorrectCount_le (hn entries hua)
      by_cases hc : dragCorrectCount mapping (answers q.id) = mapping.length
      · simp [hc]
      · simp only [if_neg hc]
        have hlt : dragCorrectCount mapping (answers q.id) < mapping.length :=
          lt_of_le_of_ne hc_le hc
        have hmpos : 0 < mapping.length := Nat.lt_of_le_of_lt (Nat.zero_le _) hlt
        show dragCorrectCount mapping (answers q.id) * questionPoints q
            / mapping.length ≤ questionPoints q
        apply Nat.div_le_of_le_mul
        exact Nat.mul_le_mul_right _ hc_le
  · simp only [questionResult, if_neg hcond]
    by_cases hmc : mcMatches (answers q.id) q.answerIndex = true
    · simp [hmc]
    · simp [hmc]

theorem sum_if_le_length {P : QuizQuestion → Prop} [DecidablePred P] :
    ∀ qs : List QuizQuestion,
      (qs.map (fun q => if P q then 1 else 0)).sum ≤ qs.length := by
  intro qs
  induction qs with
  | nil => simp
  | cons q qs ih =>
    simp only [List.map_cons, List.sum_cons, List.length_cons]
    by_cases h : P q
    · simp only [if_pos h]
      omega
    · simp only [if_neg h]
      omega

/-- C10 (implicit): for every question list and every (possibly empty or
partial) answer map whose drag-drop placements have unique category keys
(a JS object invariant), the client score calculator satisfies
`score ≤ maxScore` and `correctAnswers ≤ number of questions`, with
`maxScore` the sum of the questions' point values (each defaulting to 10
when absent or zero); `0 ≤ score` and `0 ≤ correctAnswers` hold by the
`Nat` embedding of the counters. -/
theorem calculateScore_bounds (questions : List QuizQuestion)
    (answers : String → Option UserAnswer)
    (hnodup : ∀ q ∈ questions, ∀ entries,
      answers q.id = some (UserAnswer.dragMap entries) →
      (entries.map Prod.fst).Nodup) :
    (calculateScore questions answers).score
        ≤ (calculateScore questions answers).maxScore
    ∧ (calculateScore questions answers).correctAnswers ≤ questions.length
    ∧ (calculateScore questions answers).maxScore
        = (questions.map questionPoints).sum := by
  have hfold := calcFold_spec answers questions ⟨0, 0, 0⟩
  rw [calculateScore, hfold]
  refine ⟨?_, ?_, by simp⟩
  · simp only [Nat.zero_add]
    exact List.sum_le_sum fun q hq =>
      questionResult_le answers q (fun entries ha => hnodup q hq entries ha)
  · simp only [Nat.zero_add]
    exact sum_if_le_length questions

theorem calculateScore_bounds_w :
    (calculateScore [demoQ] (fun _ => none)).score
        ≤ (calculateScore [demoQ] (fun _ => none)).maxScore
    ∧ (calculateScore [demoQ] (fun _ => none)).correctAnswers ≤ [demoQ].length
    ∧ (calculateScore [demoQ] (fun _ => none)).maxScore
        = ([demoQ].map questionPoints).sum :=
  calculateScore_bounds [demoQ] (fun _ => none)
    (fun _ _ _ habs => Option.noConfusion habs)
